import Mathlib

/-!
Shallow embedding of the single-producer single-consumer ring buffer
`Spsc<T>` from `src/spsc.rs`, with proofs of its functional specification.
Atomic loads and stores collapse to plain state reads and writes in this
sequential embedding; the raw storage block is modelled as a total function
from slot index to the value currently held in that slot's memory (raw
memory always holds some bit pattern of `T`, supplied at construction as an
arbitrary "garbage" function).
-/

variable {T : Type}

/-- State of `Spsc<T>` (`src/spsc.rs`): `size` is the slot count field,
`records` the raw storage block, and `read_index`, `write_index` the two
cursors.  The padding fields of the Rust struct are layout-only and carry
no state, so they are omitted. -/
structure Spsc (T : Type) where
  size : Nat
  records : Nat → T
  read_index : Nat
  write_index : Nat

/-- `Spsc::new(size)`: requires `size >= 2` (asserted in the source),
allocates `size` uninitialized slots (their arbitrary initial contents are
the function `g`) and initializes both cursors to 0. -/
def Spsc.new (size : Nat) (g : Nat → T) : Spsc T :=
  { size := size, records := g, read_index := 0, write_index := 0 }

/-- `Spsc::write`: loads `write_index`, computes
`next_record = (current_write + 1) % size`; if `next_record` differs from
`read_index`, stores the record at slot `current_write`, publishes
`next_record` as the new `write_index` and returns `true`; otherwise the
queue is full and it returns `false` without touching any state. -/
def Spsc.write (q : Spsc T) (record : T) : Bool × Spsc T :=
  let current_write := q.write_index
  let next_record := (current_write + 1) % q.size
  if next_record ≠ q.read_index then
    (true,
      { q with
          records := Function.update q.records current_write record,
          write_index := next_record })
  else
    (false, q)

/-- `Spsc::write_all`: `for i in records { self.write(i); }` — a fold of
`write` over the list, discarding the boolean results. -/
def Spsc.write_all (q : Spsc T) (records : List T) : Spsc T :=
  records.foldl (fun s v => (s.write v).2) q

/-- `Spsc::read`: loads `read_index`; if it equals `write_index` the queue
is empty and `None` is returned with no state change; otherwise the record
at slot `current_read` is moved out, `read_index` advances to
`(current_read + 1) % size`, and `Some record` is returned. -/
def Spsc.read (q : Spsc T) : Option T × Spsc T :=
  let current_read := q.read_index
  if current_read = q.write_index then
    (none, q)
  else
    let next_record := (current_read + 1) % q.size
    (some (q.records current_read), { q with read_index := next_record })

/-- Fuel-indexed unfolding of the `while let Some(frame) = self.read()`
loop of `Spsc::read_all`.  Each successful `read` strictly decreases the
circular distance from `read_index` to `write_index`, which is below
`size` for every state whose cursors are in range, so fuel `size` is
enough to drain the queue (see `readAllFuel_drains`). -/
def readAllFuel : Nat → Spsc T → List T × Spsc T
  | 0, q => ([], q)
  | fuel + 1, q =>
    match Spsc.read q with
    | (none, q1) => ([], q1)
    | (some v, q1) =>
      let rest := readAllFuel fuel q1
      (v :: rest.1, rest.2)

/-- `Spsc::read_all`: drains the queue by calling `read` until it returns
`None`, collecting the values in FIFO order. -/
def Spsc.read_all (q : Spsc T) : List T × Spsc T :=
  readAllFuel q.size q

/-- `Spsc::front_ptr`: if the queue is non-empty, returns a reference to
the element at slot `read_index` (modelled by the value it points at);
otherwise returns `None`.  No cursor is modified. -/
def Spsc.front_ptr (q : Spsc T) : Option T :=
  let current_read := q.read_index
  if current_read = q.write_index then
    none
  else
    some (q.records current_read)

/-- `Spsc::pop_front`: asserts that the queue is non-empty (modelled by
returning `none` when the assertion fails, i.e. the program aborts),
drops the element in place at slot `read_index` (the slot's memory keeps
its bytes) and advances `read_index` to `(current_read + 1) % size`. -/
def Spsc.pop_front (q : Spsc T) : Option (Spsc T) :=
  let current_read := q.read_index
  if current_read = q.write_index then
    none
  else
    some { q with read_index := (current_read + 1) % q.size }

/-- `Spsc::is_empty`: the two cursors are equal. -/
def Spsc.is_empty (q : Spsc T) : Bool :=
  decide (q.read_index = q.write_index)

/-- `Spsc::is_full`: `(write_index + 1) % size == read_index`. -/
def Spsc.is_full (q : Spsc T) : Bool :=
  decide ((q.write_index + 1) % q.size = q.read_index)

/-- `Spsc::size_guess`: `write_index - read_index` when
`write_index >= read_index`, else `size - read_index + write_index`. -/
def Spsc.size_guess (q : Spsc T) : Nat :=
  if q.write_index ≥ q.read_index then
    q.write_index - q.read_index
  else
    q.size - q.read_index + q.write_index

/-- `Spsc::capacity`: `size - 1` (one slot is the sentinel). -/
def Spsc.capacity (q : Spsc T) : Nat :=
  q.size - 1

/-- A single-thread operation on the queue: one `write(v)` call or one
`read()` call. -/
inductive Op (T : Type) where
  | write (v : T)
  | read

/-- Observable result of one operation: the boolean returned by `write`
or the option returned by `read`. -/
inductive Out (T : Type) where
  | wrote (ok : Bool)
  | got (v : Option T)
  deriving DecidableEq

/-- Run a sequence of operations on the queue, collecting the observable
results. -/
def Spsc.run : List (Op T) → Spsc T → List (Out T) × Spsc T
  | [], q => ([], q)
  | Op.write v :: ops, q =>
    let p := q.write v
    let rest := Spsc.run ops p.2
    (Out.wrote p.1 :: rest.1, rest.2)
  | Op.read :: ops, q =>
    let p := q.read
    let rest := Spsc.run ops p.2
    (Out.got p.1 :: rest.1, rest.2)

/-- Abstract model: a bounded FIFO queue over lists with capacity `c`.
A write appends at the back when fewer than `c` elements are present. -/
def mwrite (c : Nat) (l : List T) (v : T) : Bool × List T :=
  if l.length < c then (true, l ++ [v]) else (false, l)

/-- Abstract model: reading removes and returns the front element. -/
def mread : List T → Option T × List T
  | [] => (none, [])
  | v :: l => (some v, l)

/-- Run a sequence of operations on the abstract bounded FIFO queue. -/
def mrun (c : Nat) : List (Op T) → List T → List (Out T) × List T
  | [], l => ([], l)
  | Op.write v :: ops, l =>
    let p := mwrite c l v
    let rest := mrun c ops p.2
    (Out.wrote p.1 :: rest.1, rest.2)
  | Op.read :: ops, l =>
    let p := mread l
    let rest := mrun c ops p.2
    (Out.got p.1 :: rest.1, rest.2)

/-- Cursor sanity: at least two slots and both cursors strictly below the
slot count.  `Spsc::new` establishes this and every operation preserves
it. -/
abbrev Valid (q : Spsc T) : Prop :=
  2 ≤ q.size ∧ q.read_index < q.size ∧ q.write_index < q.size

/-- The live contents of the queue in FIFO order: the slots at circular
positions `read_index, read_index + 1, ...` up to (excluding)
`write_index`. -/
def absList (q : Spsc T) : List T :=
  (List.range q.size_guess).map fun i => q.records ((q.read_index + i) % q.size)

/-- A state is reachable when it results from running some operation
sequence on a freshly constructed queue with at least two slots.
(`pop_front` changes the state exactly as a successful `read` does, and
`write_all` / `read_all` are loops of `write` / `read`, so closing under
`write` and `read` covers the whole API.) -/
def Reachable (q : Spsc T) : Prop :=
  ∃ n : Nat, ∃ g : Nat → T, ∃ ops : List (Op T),
    2 ≤ n ∧ q = (Spsc.run ops (Spsc.new n g)).2

/-- The spec's description of `write_all`: "enqueues each value via
`write` in order ... equivalent to a loop of `write` calls", as a direct
recursive loop. -/
def writeAllSpec : Spsc T → List T → Spsc T
  | q, [] => q
  | q, v :: rest => writeAllSpec (q.write v).2 rest

theorem size_guess_le (q : Spsc T) (h : Valid q) : q.size_guess ≤ q.size - 1 := by
  obtain ⟨hn, hr, hw⟩ := h
  unfold Spsc.size_guess
  split <;> omega

theorem size_guess_widx (q : Spsc T) (h : Valid q) :
    (q.read_index + q.size_guess) % q.size = q.write_index := by
  obtain ⟨hn, hr, hw⟩ := h
  unfold Spsc.size_guess
  split
  · have h1 : q.read_index + (q.write_index - q.read_index) = q.write_index := by omega
    rw [h1, Nat.mod_eq_of_lt hw]
  · have h1 : q.read_index + (q.size - q.read_index + q.write_index)
        = q.size + q.write_index := by omega
    rw [h1, Nat.add_mod_left, Nat.mod_eq_of_lt hw]

theorem empty_iff_guess (q : Spsc T) (h : Valid q) :
    q.read_index = q.write_index ↔ q.size_guess = 0 := by
  obtain ⟨hn, hr, hw⟩ := h
  unfold Spsc.size_guess
  split <;> omega

theorem full_iff_guess (q : Spsc T) (h : Valid q) :
    (q.write_index + 1) % q.size = q.read_index ↔ q.size_guess = q.size - 1 := by
  obtain ⟨hn, hr, hw⟩ := h
  unfold Spsc.size_guess
  rcases Nat.lt_or_ge (q.write_index + 1) q.size with h1 | h1
  · rw [Nat.mod_eq_of_lt h1]
    split <;> omega
  · have h2 : q.write_index + 1 = q.size := by omega
    rw [h2, Nat.mod_self]
    split <;> omega

theorem mod_shift_inj {n r a b : Nat} (ha : a < n) (hb : b < n)
    (h : (r + a) % n = (r + b) % n) : a = b := by
  have h2 : a ≡ b [MOD n] := Nat.ModEq.add_left_cancel' r h
  have h3 : a % n = b % n := h2
  rw [Nat.mod_eq_of_lt ha, Nat.mod_eq_of_lt hb] at h3
  exact h3

theorem absList_length (q : Spsc T) : (absList q).length = q.size_guess := by
  simp [absList]

theorem guess_pos (q : Spsc T) (h : Valid q) (hne : q.read_index ≠ q.write_index) :
    1 ≤ q.size_guess := by
  rcases Nat.eq_zero_or_pos q.size_guess with h0 | h0
  · exact absurd ((empty_iff_guess q h).mpr h0) hne
  · omega

theorem write_fail (q : Spsc T) (v : T)
    (h : (q.write_index + 1) % q.size = q.read_index) : q.write v = (false, q) := by
  simp [Spsc.write, h]

theorem write_not_full (q : Spsc T) (v : T) (h : Valid q)
    (hnf : q.size_guess < q.size - 1) :
    (q.write v).1 = true
    ∧ (q.write v).2.size = q.size
    ∧ (q.write v).2.records = Function.update q.records q.write_index v
    ∧ (q.write v).2.read_index = q.read_index
    ∧ (q.write v).2.write_index = (q.write_index + 1) % q.size := by
  have hne : (q.write_index + 1) % q.size ≠ q.read_index := by
    intro hc
    rw [full_iff_guess q h] at hc
    omega
  simp [Spsc.write, hne]

theorem write_valid (q : Spsc T) (v : T) (h : Valid q) :
    Valid (q.write v).2 ∧ (q.write v).2.size = q.size := by
  obtain ⟨hn, hr, hw⟩ := h
  simp only [Spsc.write]
  split
  · exact ⟨⟨hn, hr, Nat.mod_lt _ (by omega)⟩, rfl⟩
  · exact ⟨⟨hn, hr, hw⟩, rfl⟩

theorem write_size_guess (q : Spsc T) (v : T) (h : Valid q)
    (hnf : q.size_guess < q.size - 1) :
    (q.write v).2.size_guess = q.size_guess + 1 := by
  obtain ⟨-, h2, -, h4, h5⟩ := write_not_full q v h hnf
  obtain ⟨hn, hr, hw⟩ := h
  unfold Spsc.size_guess at hnf ⊢
  rw [h2, h4, h5]
  rcases Nat.lt_or_ge (q.write_index + 1) q.size with h1 | h1
  · rw [Nat.mod_eq_of_lt h1]
    split_ifs at hnf ⊢ <;> omega
  · have h6 : q.write_index + 1 = q.size := by omega
    rw [h6, Nat.mod_self]
    split_ifs at hnf ⊢ <;> omega

theorem write_absList (q : Spsc T) (v : T) (h : Valid q)
    (hnf : q.size_guess < q.size - 1) :
    absList (q.write v).2 = absList q ++ [v] := by
  obtain ⟨-, h2, h3, h4, -⟩ := write_not_full q v h hnf
  have hg := write_size_guess q v h hnf
  have hval := h
  obtain ⟨hn, hr, hw⟩ := h
  unfold absList
  simp only [hg, h2, h3, h4]
  rw [List.range_succ, List.map_append]
  congr 1
  · apply List.map_congr_left
    intro i hi
    rw [List.mem_range] at hi
    have hiw : (q.read_index + i) % q.size ≠ q.write_index := by
      intro hc
      rw [← size_guess_widx q hval] at hc
      have hide := mod_shift_inj (a := i) (b := q.size_guess)
        (by omega) (by omega) hc
      omega
    rw [Function.update_apply, if_neg hiw]
  · simp only [List.map_cons, List.map_nil]
    rw [size_guess_widx q hval, Function.update_same]

theorem read_nonempty (q : Spsc T) (hne : q.read_index ≠ q.write_index) :
    q.read = (some (q.records q.read_index),
      { q with read_index := (q.read_index + 1) % q.size }) := by
  simp [Spsc.read, hne]

theorem read_valid (q : Spsc T) (h : Valid q) :
    Valid (q.read).2 ∧ (q.read).2.size = q.size := by
  obtain ⟨hn, hr, hw⟩ := h
  simp only [Spsc.read]
  split
  · exact ⟨⟨hn, hr, hw⟩, rfl⟩
  · exact ⟨⟨hn, Nat.mod_lt _ (by omega), hw⟩, rfl⟩

theorem read_size_guess (q : Spsc T) (h : Valid q)
    (hne : q.read_index ≠ q.write_index) :
    (q.read).2.size_guess + 1 = q.size_guess := by
  have hq := read_nonempty q hne
  obtain ⟨hn, hr, hw⟩ := h
  rw [hq]
  simp only [Spsc.size_guess]
  rcases Nat.lt_or_ge (q.read_index + 1) q.size with h1 | h1
  · rw [Nat.mod_eq_of_lt h1]
    split_ifs <;> omega
  · have h2 : q.read_index + 1 = q.size := by omega
    rw [h2, Nat.mod_self]
    split_ifs <;> omega

theorem read_absList (q : Spsc T) (h : Valid q)
    (hne : q.read_index ≠ q.write_index) :
    absList q = q.records q.read_index :: absList (q.read).2 := by
  have hq := read_nonempty q hne
  have hg := read_size_guess q h hne
  have hval := h
  obtain ⟨hn, hr, hw⟩ := h
  have h2 : (q.read).2.size = q.size := by rw [hq]
  have h3 : (q.read).2.records = q.records := by rw [hq]
  have h4 : (q.read).2.read_index = (q.read_index + 1) % q.size := by rw [hq]
  unfold absList
  simp only [h2, h3, h4]
  rw [← hg, List.range_succ_eq_map, List.map_cons, List.map_map]
  congr 1
  · rw [Nat.add_zero, Nat.mod_eq_of_lt hr]
  · apply List.map_congr_left
    intro i hi
    simp only [Function.comp_apply]
    rw [Nat.mod_add_mod]
    have h5 : q.read_index + Nat.succ i = q.read_index + 1 + i := by omega
    rw [h5]

theorem read_empty (q : Spsc T) (h : q.read_index = q.write_index) :
    q.read = (none, q) := by
  simp [Spsc.read, h]

theorem valid_new (n : Nat) (g : Nat → T) (hn : 2 ≤ n) : Valid (Spsc.new n g) := by
  show 2 ≤ n ∧ 0 < n ∧ 0 < n
  omega

theorem absList_new (n : Nat) (g : Nat → T) : absList (Spsc.new n g) = [] := rfl

theorem run_refines (ops : List (Op T)) :
    ∀ q : Spsc T, Valid q →
      (Spsc.run ops q).1 = (mrun (q.size - 1) ops (absList q)).1
      ∧ Valid (Spsc.run ops q).2
      ∧ (Spsc.run ops q).2.size = q.size
      ∧ absList (Spsc.run ops q).2 = (mrun (q.size - 1) ops (absList q)).2 := by
  induction ops with
  | nil =>
    intro q h
    exact ⟨rfl, h, rfl, rfl⟩
  | cons op ops ih =>
    intro q h
    cases op with
    | write v =>
      rcases Nat.lt_or_ge q.size_guess (q.size - 1) with hnf | hf
      · obtain ⟨hv1, -, -, -, -⟩ := write_not_full q v h hnf
        have habs := write_absList q v h hnf
        obtain ⟨hvalid, hsize⟩ := write_valid q v h
        obtain ⟨ih1, ih2, ih3, ih4⟩ := ih (q.write v).2 hvalid
        have hm : mwrite (q.size - 1) (absList q) v = (true, absList q ++ [v]) := by
          unfold mwrite
          rw [absList_length, if_pos hnf]
        simp only [Spsc.run, mrun, hv1, hm]
        exact ⟨by rw [ih1, hsize, habs], ih2, by rw [ih3, hsize],
          by rw [ih4, hsize, habs]⟩
      · have hle := size_guess_le q h
        have hf' : q.size_guess = q.size - 1 := by omega
        have hwe := write_fail q v ((full_iff_guess q h).mpr hf')
        have hm : mwrite (q.size - 1) (absList q) v = (false, absList q) := by
          unfold mwrite
          rw [absList_length, if_neg (by omega)]
        obtain ⟨ih1, ih2, ih3, ih4⟩ := ih q h
        simp only [Spsc.run, mrun, hwe, hm]
        exact ⟨by rw [ih1], ih2, ih3, ih4⟩
    | read =>
      by_cases he : q.read_index = q.write_index
      · have hre := read_empty q he
        have habs0 : absList q = [] := by
          have h0 : (absList q).length = 0 := by
            rw [absList_length]
            exact (empty_iff_guess q h).mp he
          exact List.eq_nil_of_length_eq_zero h0
        obtain ⟨ih1, ih2, ih3, ih4⟩ := ih q h
        simp only [Spsc.run, mrun, hre, habs0, mread]
        exact ⟨by rw [ih1, habs0], ih2, ih3, by rw [ih4, habs0]⟩
      · have hrd := read_nonempty q he
        have habs := read_absList q h he
        obtain ⟨hvalid, hsize⟩ := read_valid q h
        obtain ⟨ih1, ih2, ih3, ih4⟩ := ih (q.read).2 hvalid
        have h1 : (q.read).1 = some (q.records q.read_index) := by rw [hrd]
        simp only [Spsc.run, mrun, habs, mread, h1]
        exact ⟨by rw [ih1, hsize], ih2, by rw [ih3, hsize], by rw [ih4, hsize]⟩

theorem reachable_valid (q : Spsc T) (h : Reachable q) : Valid q := by
  obtain ⟨n, g, ops, hn, rfl⟩ := h
  exact (run_refines ops (Spsc.new n g) (valid_new n g hn)).2.1

theorem mrun_append (c : Nat) (ops1 ops2 : List (Op T)) :
    ∀ l : List T, mrun c (ops1 ++ ops2) l
      = ((mrun c ops1 l).1 ++ (mrun c ops2 (mrun c ops1 l).2).1,
          (mrun c ops2 (mrun c ops1 l).2).2) := by
  induction ops1 with
  | nil =>
    intro l
    simp [mrun]
  | cons op ops ih =>
    intro l
    cases op with
    | write v => simp [mrun, ih]
    | read => simp [mrun, ih]

theorem mrun_writes_ok (c : Nat) (v : T) :
    ∀ (k : Nat) (l : List T), l.length + k ≤ c →
      mrun c (List.replicate k (Op.write v)) l
        = (List.replicate k (Out.wrote true), l ++ List.replicate k v) := by
  intro k
  induction k with
  | zero =>
    intro l h
    simp [mrun]
  | succ k ih =>
    intro l h
    rw [List.replicate_succ]
    have hlt : l.length < c := by omega
    simp only [mrun, mwrite, if_pos hlt]
    have h2 : (l ++ [v]).length + k ≤ c := by
      rw [List.length_append]
      simp
      omega
    rw [ih (l ++ [v]) h2]
    simp [List.replicate_succ, List.append_assoc]

theorem mrun_write_full (c : Nat) (v : T) (l : List T) (h : c ≤ l.length) :
    mrun c [Op.write v] l = ([Out.wrote false], l) := by
  have h2 : ¬ l.length < c := by omega
  simp [mrun, mwrite, h2]

theorem readAllFuel_valid : ∀ (fuel : Nat) (q : Spsc T),
    Valid q → Valid (readAllFuel fuel q).2 := by
  intro fuel
  induction fuel with
  | zero =>
    intro q h
    exact h
  | succ fuel ih =>
    intro q h
    have hv := (read_valid q h).1
    rcases hq : q.read with ⟨o, q1⟩
    rw [hq] at hv
    simp only [readAllFuel, hq]
    cases o with
    | none => simpa using hv
    | some v => simpa using ih q1 hv

theorem readAllFuel_drains : ∀ (fuel : Nat) (q : Spsc T),
    Valid q → q.size_guess ≤ fuel →
    (readAllFuel fuel q).2.read_index = (readAllFuel fuel q).2.write_index := by
  intro fuel
  induction fuel with
  | zero =>
    intro q h hle
    have h0 : q.size_guess = 0 := by omega
    exact (empty_iff_guess q h).mpr h0
  | succ fuel ih =>
    intro q h hle
    by_cases he : q.read_index = q.write_index
    · have hre := read_empty q he
      simp only [readAllFuel, hre]
      exact he
    · have hg := read_size_guess q h he
      have hv := (read_valid q h).1
      rcases hq : q.read with ⟨o, q1⟩
      simp only [hq] at hg hv
      have ho : o = some (q.records q.read_index) := by
        have h5 := read_nonempty q he
        rw [hq] at h5
        exact ((Prod.mk.injEq _ _ _ _).mp h5).1
      subst ho
      simp only [readAllFuel, hq]
      exact ih q1 hv (by omega)

theorem pop_front_valid (q : Spsc T) (h : Valid q) :
    Valid (q.pop_front.getD q) := by
  obtain ⟨hn, hr, hw⟩ := h
  simp only [Spsc.pop_front]
  split
  · exact ⟨hn, hr, hw⟩
  · exact ⟨hn, Nat.mod_lt _ (by omega), hw⟩

theorem write_all_valid : ∀ (vs : List T) (q : Spsc T),
    Valid q → Valid (q.write_all vs) := by
  intro vs
  induction vs with
  | nil =>
    intro q h
    exact h
  | cons v rest ih =>
    intro q h
    exact ih (q.write v).2 (write_valid q v h).1

theorem read_all_valid (q : Spsc T) (h : Valid q) : Valid (q.read_all).2 :=
  readAllFuel_valid q.size q h

theorem write_all_eq_loop (q : Spsc T) (vs : List T) :
    q.write_all vs = writeAllSpec q vs := by
  induction vs generalizing q with
  | nil => rfl
  | cons v rest ih =>
    show Spsc.write_all (q.write v).2 rest = writeAllSpec (q.write v).2 rest
    exact ih (q.write v).2

theorem write_all_absList : ∀ (vs : List T) (q : Spsc T), Valid q →
    absList (q.write_all vs) = absList q ++ vs.take (q.size - 1 - q.size_guess)
    ∧ Valid (q.write_all vs) ∧ (q.write_all vs).size = q.size := by
  intro vs
  induction vs with
  | nil =>
    intro q h
    exact ⟨by simp [Spsc.write_all], h, rfl⟩
  | cons v rest ih =>
    intro q h
    have hstep : q.write_all (v :: rest) = Spsc.write_all (q.write v).2 rest := rfl
    rcases Nat.lt_or_ge q.size_guess (q.size - 1) with hnf | hf
    · have habs := write_absList q v h hnf
      have hg := write_size_guess q v h hnf
      obtain ⟨hvw, hsw⟩ := write_valid q v h
      obtain ⟨ih1, ih2, ih3⟩ := ih (q.write v).2 hvw
      rw [hstep]
      refine ⟨?_, ih2, by rw [ih3, hsw]⟩
      rw [ih1, habs, hg, hsw]
      have htake : q.size - 1 - (q.size_guess + 1) + 1
          = q.size - 1 - q.size_guess := by omega
      rw [List.append_assoc, List.singleton_append]
      congr 1
      rw [← htake, List.take_succ_cons]
    · have hle := size_guess_le q h
      have heq : q.size_guess = q.size - 1 := by omega
      have hwf := write_fail q v ((full_iff_guess q h).mpr heq)
      obtain ⟨ih1, ih2, ih3⟩ := ih q h
      rw [hstep, hwf]
      refine ⟨?_, ih2, ih3⟩
      rw [ih1]
      have h0 : q.size - 1 - q.size_guess = 0 := by omega
      rw [h0]
      simp

/-- C1 (amended): on a single thread, the observable outputs of any
sequence of `write`/`read` calls starting from `new n` (n ≥ 2) coincide
with those of the ideal FIFO list queue of capacity `n - 1`, so every
value returned by `read` is the oldest not-yet-read successfully-written
value and values are read back in exactly the order written; in
particular, writing a value `v` into an EMPTY queue (empty, not merely
non-full) and then reading with no intervening reads yields `Some v`. -/
theorem spsc_fifo_order (n : Nat) (hn : 2 ≤ n) (g : Nat → T)
    (ops : List (Op T)) (v : T) :
    (Spsc.run ops (Spsc.new n g)).1 = (mrun (n - 1) ops ([] : List T)).1
    ∧ ((Spsc.run ops (Spsc.new n g)).2.is_empty = true →
        ((((Spsc.run ops (Spsc.new n g)).2.write v).2).read).1 = some v) := by
  have hv0 := valid_new n g hn
  obtain ⟨h1, h2, h3, h4⟩ := run_refines ops (Spsc.new n g) hv0
  have hsz : (Spsc.new n g).size = n := rfl
  constructor
  · rw [h1, absList_new, hsz]
  · intro he
    simp only [Spsc.is_empty, decide_eq_true_eq] at he
    set s := (Spsc.run ops (Spsc.new n g)).2 with hs
    have hg0 : s.size_guess = 0 := (empty_iff_guess s h2).mp he
    have hnf : s.size_guess < s.size - 1 := by
      have hsn : s.size = n := h3
      omega
    have habs := write_absList s v h2 hnf
    have habs_nil : absList s = [] := by
      have hl : (absList s).length = 0 := by rw [absList_length, hg0]
      exact List.eq_nil_of_length_eq_zero hl
    rw [habs_nil] at habs
    obtain ⟨hvw, hsw⟩ := write_valid s v h2
    have hne : (s.write v).2.read_index ≠ (s.write v).2.write_index := by
      intro hc
      have h5 := (empty_iff_guess (s.write v).2 hvw).mp hc
      have h6 : (absList (s.write v).2).length = 0 := by rw [absList_length, h5]
      rw [habs] at h6
      simp at h6
    have hra := read_absList (s.write v).2 hvw hne
    rw [habs] at hra
    simp only [List.nil_append] at hra
    have hv' : (s.write v).2.records (s.write v).2.read_index = v :=
      (((List.cons.injEq _ _ _ _).mp hra).1).symm
    have hrd := read_nonempty (s.write v).2 hne
    have h7 : ((s.write v).2.read).1
        = some ((s.write v).2.records (s.write v).2.read_index) := by rw [hrd]
    rw [h7, hv']

/-- C1 counterexample: the claim as stated fails for a non-full but
non-empty queue.  With `n = 3`, after writing `1`, the queue is not full,
yet writing `2` and then reading returns `Some 1`, not `Some 2`. -/
theorem spsc_roundtrip_nonfull_cex :
    (((Spsc.new 3 (fun _ => (0 : Nat))).write 1).2.is_full = false)
    ∧ (((((Spsc.new 3 (fun _ => (0 : Nat))).write 1).2.write 2).2.read).1 = some 1)
    ∧ some (1 : Nat) ≠ some 2 := by
  refine ⟨by decide, by decide, by decide⟩

/-- Witness for C1 at `n = 2`, `ops = [write 4, read]`, `v = 9`: the trace
refinement holds and, the final state being empty, the round trip returns
`Some 9`. -/
theorem spsc_fifo_order_witness :
    (Spsc.run [Op.write 4, Op.read] (Spsc.new 2 (fun _ => (0 : Nat)))).1
        = (mrun (2 - 1) [Op.write 4, Op.read] ([] : List Nat)).1
    ∧ ((((Spsc.run [Op.write 4, Op.read] (Spsc.new 2 (fun _ => (0 : Nat)))).2.write
          9).2).read).1 = some 9 :=
  ⟨(spsc_fifo_order 2 (by omega) (fun _ => (0 : Nat)) [Op.write 4, Op.read] 9).1,
   (spsc_fifo_order 2 (by omega) (fun _ => (0 : Nat)) [Op.write 4, Op.read] 9).2
     (by decide)⟩

/-- C2: from a freshly constructed queue with `n ≥ 2` slots, each of the
first `n - 1` consecutive `write` calls returns `true` and the `n`-th
consecutive write (no interleaved reads) returns `false`. -/
theorem spsc_capacity_law (n : Nat) (hn : 2 ≤ n) (g : Nat → T) (v : T) :
    (Spsc.run (List.replicate n (Op.write v)) (Spsc.new n g)).1
      = List.replicate (n - 1) (Out.wrote true) ++ [Out.wrote false] := by
  have hv0 := valid_new n g hn
  obtain ⟨h1, -, -, -⟩ :=
    run_refines (List.replicate n (Op.write v)) (Spsc.new n g) hv0
  have hsz : (Spsc.new n g).size = n := rfl
  rw [hsz] at h1
  rw [h1, absList_new]
  have hsplit : List.replicate n (Op.write v)
      = List.replicate (n - 1) (Op.write v) ++ [Op.write v] := by
    rw [← List.replicate_succ']
    congr 1
    omega
  rw [hsplit, mrun_append]
  have hA := mrun_writes_ok (n - 1) v (n - 1) ([] : List T) (by simp)
  rw [hA]
  have hB := mrun_write_full (n - 1) v (List.replicate (n - 1) v) (by simp)
  simp only [List.nil_append]
  rw [hB]

/-- Witness for C2 at `n = 3`: two writes succeed, the third is
rejected. -/
theorem spsc_capacity_law_witness :
    (Spsc.run (List.replicate 3 (Op.write (5 : Nat))) (Spsc.new 3 (fun _ => 0))).1
      = List.replicate (3 - 1) (Out.wrote true) ++ [Out.wrote false] :=
  spsc_capacity_law 3 (by omega) (fun _ => 0) 5

/-- C3: on any state in which `(write_index + 1) % capacity_slots =
read_index` (the queue is full), `write` returns `false` and leaves the
entire state — both cursors and every slot — unchanged. -/
theorem spsc_write_full_rejected (q : Spsc T) (v : T)
    (h : (q.write_index + 1) % q.size = q.read_index) :
    q.write v = (false, q) :=
  write_fail q v h

/-- Witness for C3 at a concrete full state (`n = 2`, one live
element). -/
theorem spsc_write_full_rejected_witness :
    (Spsc.mk 2 (fun _ => (0 : Nat)) 0 1).write 5
      = (false, Spsc.mk 2 (fun _ => (0 : Nat)) 0 1) :=
  spsc_write_full_rejected (Spsc.mk 2 (fun _ => (0 : Nat)) 0 1) 5 (by decide)

/-- C4: on every reachable state, `is_empty` holds iff the cursors are
equal, `is_full` holds iff `(write_index + 1) % capacity_slots =
read_index`, and the two are never simultaneously true. -/
theorem spsc_empty_full_excl (q : Spsc T) (h : Reachable q) :
    (q.is_empty = true ↔ q.read_index = q.write_index)
    ∧ (q.is_full = true ↔ (q.write_index + 1) % q.size = q.read_index)
    ∧ ¬(q.is_empty = true ∧ q.is_full = true) := by
  have hv := reachable_valid q h
  refine ⟨by simp [Spsc.is_empty], by simp [Spsc.is_full], ?_⟩
  rintro ⟨h1, h2⟩
  simp only [Spsc.is_empty, decide_eq_true_eq] at h1
  simp only [Spsc.is_full, decide_eq_true_eq] at h2
  have h3 := (empty_iff_guess q hv).mp h1
  have h4 := (full_iff_guess q hv).mp h2
  obtain ⟨hn, -, -⟩ := hv
  omega

/-- Witness for C4 at the reachable state `new 2`. -/
theorem spsc_empty_full_excl_witness :
    ((Spsc.new 2 (fun _ => (0 : Nat))).is_empty = true
        ↔ (Spsc.new 2 (fun _ => (0 : Nat))).read_index
          = (Spsc.new 2 (fun _ => (0 : Nat))).write_index)
    ∧ ((Spsc.new 2 (fun _ => (0 : Nat))).is_full = true
        ↔ ((Spsc.new 2 (fun _ => (0 : Nat))).write_index + 1)
            % (Spsc.new 2 (fun _ => (0 : Nat))).size
          = (Spsc.new 2 (fun _ => (0 : Nat))).read_index)
    ∧ ¬((Spsc.new 2 (fun _ => (0 : Nat))).is_empty = true
        ∧ (Spsc.new 2 (fun _ => (0 : Nat))).is_full = true) :=
  spsc_empty_full_excl (Spsc.new 2 (fun _ => (0 : Nat)))
    ⟨2, fun _ => 0, [], by omega, rfl⟩

/-- C5: `read` on a state with equal cursors returns `None` and changes
nothing; on a state with distinct cursors it returns `Some` of the
element at slot `read_index` and advances only `read_index`, to
`(read_index + 1) % capacity_slots`. -/
theorem spsc_read_spec (q : Spsc T) :
    (q.read_index = q.write_index → q.read = (none, q))
    ∧ (q.read_index ≠ q.write_index →
        q.read = (some (q.records q.read_index),
          { q with read_index := (q.read_index + 1) % q.size })) :=
  ⟨fun h => read_empty q h, fun h => read_nonempty q h⟩

/-- Witness for C5: an empty state and a one-element state. -/
theorem spsc_read_spec_witness :
    (Spsc.mk 2 (fun _ => (0 : Nat)) 1 1).read
      = (none, Spsc.mk 2 (fun _ => (0 : Nat)) 1 1)
    ∧ (Spsc.mk 2 (fun _ => (7 : Nat)) 0 1).read
      = (some 7, Spsc.mk 2 (fun _ => (7 : Nat)) 1 1) :=
  ⟨(spsc_read_spec (Spsc.mk 2 (fun _ => (0 : Nat)) 1 1)).1 rfl,
   (spsc_read_spec (Spsc.mk 2 (fun _ => (7 : Nat)) 0 1)).2 (by decide)⟩

/-- C6: `pop_front` on an empty state fails its assertion (modelled by
`none`); on a non-empty state the assertion branch is not taken and it
advances `read_index` by one modulo `capacity_slots`, returning no
value. -/
theorem spsc_pop_front_spec (q : Spsc T) :
    (q.read_index = q.write_index → q.pop_front = none)
    ∧ (q.read_index ≠ q.write_index →
        q.pop_front = some { q with read_index := (q.read_index + 1) % q.size }) := by
  constructor
  · intro h
    simp [Spsc.pop_front, h]
  · intro h
    simp [Spsc.pop_front, h]

/-- Witness for C6: an empty state aborts, a non-empty state advances
`read_index`. -/
theorem spsc_pop_front_spec_witness :
    (Spsc.mk 2 (fun _ => (0 : Nat)) 1 1).pop_front = none
    ∧ (Spsc.mk 2 (fun _ => (3 : Nat)) 0 1).pop_front
      = some (Spsc.mk 2 (fun _ => (3 : Nat)) 1 1) :=
  ⟨(spsc_pop_front_spec (Spsc.mk 2 (fun _ => (0 : Nat)) 1 1)).1 rfl,
   (spsc_pop_front_spec (Spsc.mk 2 (fun _ => (3 : Nat)) 0 1)).2 (by decide)⟩

/-- C7: on an empty state `front_ptr` returns `None`; on a non-empty
state it returns `Some` of exactly the value at slot `read_index` — the
same value that `read` would return, and `pop_front` on the same state
produces exactly the state that `read` would.  `front_ptr` takes the
state immutably and never stores to a cursor, so both cursors are
unchanged by construction. -/
theorem spsc_front_ptr_consistent (q : Spsc T) :
    (q.read_index = q.write_index → q.front_ptr = none)
    ∧ (q.read_index ≠ q.write_index →
        q.front_ptr = some (q.records q.read_index)
        ∧ q.front_ptr = (q.read).1
        ∧ q.pop_front = some (q.read).2) := by
  constructor
  · intro h
    simp [Spsc.front_ptr, h]
  · intro h
    refine ⟨by simp [Spsc.front_ptr, h], ?_, ?_⟩
    · simp [Spsc.front_ptr, Spsc.read, h]
    · simp [Spsc.pop_front, Spsc.read, h]

/-- Witness for C7: an empty state and a one-element state. -/
theorem spsc_front_ptr_consistent_witness :
    (Spsc.mk 2 (fun _ => (0 : Nat)) 1 1).front_ptr = none
    ∧ ((Spsc.mk 2 (fun _ => (8 : Nat)) 0 1).front_ptr = some 8
       ∧ (Spsc.mk 2 (fun _ => (8 : Nat)) 0 1).front_ptr
           = ((Spsc.mk 2 (fun _ => (8 : Nat)) 0 1).read).1
       ∧ (Spsc.mk 2 (fun _ => (8 : Nat)) 0 1).pop_front
           = some ((Spsc.mk 2 (fun _ => (8 : Nat)) 0 1).read).2) :=
  ⟨(spsc_front_ptr_consistent (Spsc.mk 2 (fun _ => (0 : Nat)) 1 1)).1 rfl,
   (spsc_front_ptr_consistent (Spsc.mk 2 (fun _ => (8 : Nat)) 0 1)).2 (by decide)⟩

/-- C8: `size_guess` is `write_index - read_index` when
`write_index ≥ read_index` and `capacity_slots - read_index +
write_index` otherwise — the circular distance from `read_index` to
`write_index`. -/
theorem spsc_size_guess_formula (q : Spsc T) :
    (q.read_index ≤ q.write_index →
        q.size_guess = q.write_index - q.read_index)
    ∧ (q.write_index < q.read_index →
        q.size_guess = q.size - q.read_index + q.write_index) := by
  constructor
  · intro h
    simp [Spsc.size_guess, h]
  · intro h
    have h2 : ¬ q.read_index ≤ q.write_index := by omega
    simp [Spsc.size_guess, h2]

/-- Witness for C8: a non-wrapped and a wrapped state. -/
theorem spsc_size_guess_formula_witness :
    (Spsc.mk 5 (fun _ => (0 : Nat)) 1 3).size_guess
        = (Spsc.mk 5 (fun _ => (0 : Nat)) 1 3).write_index
          - (Spsc.mk 5 (fun _ => (0 : Nat)) 1 3).read_index
    ∧ (Spsc.mk 5 (fun _ => (0 : Nat)) 3 1).size_guess
        = (Spsc.mk 5 (fun _ => (0 : Nat)) 3 1).size
          - (Spsc.mk 5 (fun _ => (0 : Nat)) 3 1).read_index
          + (Spsc.mk 5 (fun _ => (0 : Nat)) 3 1).write_index :=
  ⟨(spsc_size_guess_formula (Spsc.mk 5 (fun _ => (0 : Nat)) 1 3)).1 (by decide),
   (spsc_size_guess_formula (Spsc.mk 5 (fun _ => (0 : Nat)) 3 1)).2 (by decide)⟩

/-- C9: `write_all` is exactly a loop of `write` calls (the two
definitions agree on every state), and on a valid state with `f` free
slots (`capacity - size_guess`), exactly the first `f` supplied values
are enqueued in order and any remaining values are silently dropped:
the live contents become the old contents followed by `take f` of the
input. -/
theorem spsc_write_all_equiv (q : Spsc T) (vs : List T) (h : Valid q) :
    q.write_all vs = writeAllSpec q vs
    ∧ absList (q.write_all vs)
        = absList q ++ vs.take (q.capacity - q.size_guess) :=
  ⟨write_all_eq_loop q vs, (write_all_absList vs q h).1⟩

/-- Witness for C9: a queue with 3 slots holding one element has one free
slot; of `[5, 6]` only `5` is enqueued. -/
theorem spsc_write_all_equiv_witness :
    (Spsc.mk 3 (fun _ => (9 : Nat)) 0 1).write_all [5, 6]
        = writeAllSpec (Spsc.mk 3 (fun _ => (9 : Nat)) 0 1) [5, 6]
    ∧ absList ((Spsc.mk 3 (fun _ => (9 : Nat)) 0 1).write_all [5, 6])
        = absList (Spsc.mk 3 (fun _ => (9 : Nat)) 0 1)
          ++ [5, 6].take ((Spsc.mk 3 (fun _ => (9 : Nat)) 0 1).capacity
              - (Spsc.mk 3 (fun _ => (9 : Nat)) 0 1).size_guess) :=
  spsc_write_all_equiv (Spsc.mk 3 (fun _ => (9 : Nat)) 0 1) [5, 6] (by decide)

/-- C10: `new` establishes and every operation preserves the invariant
that both cursors are strictly below `capacity_slots` (every advance is
taken modulo `capacity_slots`), and consequently `size_guess` never
exceeds `capacity`.  (`pop_front` is stated through `Option.getD`: when
it succeeds the resulting state is valid.) -/
theorem spsc_index_range (n : Nat) (g : Nat → T) (q : Spsc T) (v : T)
    (vs : List T) (hn : 2 ≤ n) (h : Valid q) :
    Valid (Spsc.new n g)
    ∧ Valid (q.write v).2
    ∧ Valid (q.read).2
    ∧ Valid (q.pop_front.getD q)
    ∧ Valid (q.write_all vs)
    ∧ Valid (q.read_all).2
    ∧ q.size_guess ≤ q.capacity :=
  ⟨valid_new n g hn, (write_valid q v h).1, (read_valid q h).1,
   pop_front_valid q h, write_all_valid vs q h, read_all_valid q h,
   size_guess_le q h⟩

/-- Witness for C10 at a concrete wrapped state. -/
theorem spsc_index_range_witness :
    Valid (Spsc.new 2 (fun _ => (0 : Nat)))
    ∧ Valid ((Spsc.mk 3 (fun _ => (0 : Nat)) 2 1).write 4).2
    ∧ Valid ((Spsc.mk 3 (fun _ => (0 : Nat)) 2 1).read).2
    ∧ Valid ((Spsc.mk 3 (fun _ => (0 : Nat)) 2 1).pop_front.getD
        (Spsc.mk 3 (fun _ => (0 : Nat)) 2 1))
    ∧ Valid ((Spsc.mk 3 (fun _ => (0 : Nat)) 2 1).write_all [1, 2, 3])
    ∧ Valid ((Spsc.mk 3 (fun _ => (0 : Nat)) 2 1).read_all).2
    ∧ (Spsc.mk 3 (fun _ => (0 : Nat)) 2 1).size_guess
        ≤ (Spsc.mk 3 (fun _ => (0 : Nat)) 2 1).capacity :=
  spsc_index_range 2 (fun _ => 0) (Spsc.mk 3 (fun _ => (0 : Nat)) 2 1) 4
    [1, 2, 3] (by omega) (by decide)
